import Mathlib

/-!
Verification development for the yafpm deterministic package builder.

The Lean definitions below are a shallow embedding of the Rust sources:
  src/hashes.rs     (hex serialization of content hashes)
  src/package.rs    (Package, pkg_ident, is_installed)
  src/dirs.rs       (create_context_dir)
  src/context/mod.rs and src/build_cxt.rs (Context trait, BuildCxt pipeline)
  src/namespace.rs  (bind mount path computation)
  src/resource.rs   (Resource::fetch_resource and backends)
  src/walk_dir.rs   (calculate_directory_hash)

Filesystem, process and kernel effects are modelled by explicit oracles
(records of the outcomes the OS can produce); machine strings are Lean
Strings, byte sequences are lists of naturals below 256, and the Blake2s
digest is an abstract function parameter supplied by the oracle.
-/

namespace Yafpm

/-! ## Content hash hex encoding, src/hashes.rs -/

/-- Lowercase hex digit characters, as in data_encoding HEXLOWER. -/
def hexDigits : List Char := String.toList "0123456789abcdef"

/-- Lowercase hex digit for a value below 16. -/
def hexDigit (n : Nat) : Char := hexDigits.getD n 'x'

/-- Model of the Serialize impl for ItemHash: format with LowerHex writes two
lowercase hex characters per digest byte. -/
def serializeItemHash (h : List Nat) : List Char :=
  h.flatMap (fun b => [hexDigit (b / 16), hexDigit (b % 16)])

/-- Value of one hex character under HEXLOWER_PERMISSIVE: digits, lowercase
and uppercase letters are all accepted. -/
def hexCharVal (c : Char) : Option Nat :=
  if 48 ≤ c.toNat ∧ c.toNat ≤ 57 then some (c.toNat - 48)
  else if 97 ≤ c.toNat ∧ c.toNat ≤ 102 then some (c.toNat - 87)
  else if 65 ≤ c.toNat ∧ c.toNat ≤ 70 then some (c.toNat - 55)
  else none

/-- Model of HEX.decode_mut on an even-length character sequence. -/
def decodeHexPermissive : List Char → Option (List Nat)
  | [] => some []
  | [_] => none
  | c1 :: c2 :: rest =>
    match hexCharVal c1, hexCharVal c2, decodeHexPermissive rest with
    | some v1, some v2, some bs => some ((16 * v1 + v2) :: bs)
    | _, _, _ => none

/-- Blake2s digest width in bytes; the one digest algorithm the crate
instantiates. -/
def blake2sOutputSize : Nat := 32

/-- Errors of the ItemHash deserialization visitor: a wrong-length input is
rejected with invalid_length before any decode is attempted; a decode
failure surfaces as a custom error. -/
inductive HashDeErr where
  | invalidLength (found : Nat)
  | customDecodeErr
deriving DecidableEq

/-- Model of ItemHashVisitor::visit_borrowed_str from src/hashes.rs: compare
the input length with HEX.encode_len(output_size) = 2 * 32 first, and only
then run the permissive hex decoder. -/
def visitBorrowedStr (v : List Char) : Except HashDeErr (List Nat) :=
  let expectedLen := 2 * blake2sOutputSize
  if v.length ≠ expectedLen then .error (.invalidLength v.length)
  else
    match decodeHexPermissive v with
    | some bs => .ok bs
    | none => .error .customDecodeErr

theorem hexCharVal_hexDigit (n : Nat) (h : n < 16) :
    hexCharVal (hexDigit n) = some n := by
  interval_cases n <;> decide

theorem serializeItemHash_cons (b : Nat) (t : List Nat) :
    serializeItemHash (b :: t) =
      hexDigit (b / 16) :: hexDigit (b % 16) :: serializeItemHash t := by
  simp [serializeItemHash, List.flatMap_cons]

theorem decodeHexPermissive_serialize (h : List Nat) (hb : ∀ b ∈ h, b < 256) :
    decodeHexPermissive (serializeItemHash h) = some h := by
  induction h with
  | nil => rfl
  | cons b t ih =>
    have hblt : b < 256 := hb b (List.mem_cons_self b t)
    have h1 : b / 16 < 16 := by omega
    have h2 : b % 16 < 16 := by omega
    have ht : decodeHexPermissive (serializeItemHash t) = some t :=
      ih (fun x hx => hb x (List.mem_cons_of_mem b hx))
    rw [serializeItemHash_cons]
    simp only [decodeHexPermissive, hexCharVal_hexDigit _ h1,
      hexCharVal_hexDigit _ h2, ht]
    rw [show 16 * (b / 16) + b % 16 = b by omega]

theorem serializeItemHash_length (h : List Nat) :
    (serializeItemHash h).length = 2 * h.length := by
  induction h with
  | nil => rfl
  | cons b t ih =>
    rw [serializeItemHash_cons]
    simp only [List.length_cons, ih]
    omega

/-! ## Package identifier, src/package.rs -/

/-- RFC 4648 base32 alphabet used by data_encoding BASE32_NOPAD. -/
def base32Alphabet : List Char := String.toList "ABCDEFGHIJKLMNOPQRSTUVWXYZ234567"

/-- The eight bits of a byte, most significant first. -/
def byteBits (b : Nat) : List Nat :=
  [b / 128 % 2, b / 64 % 2, b / 32 % 2, b / 16 % 2,
   b / 8 % 2, b / 4 % 2, b / 2 % 2, b % 2]

/-- Value of a bit group, most significant bit first. -/
def bitsVal (l : List Nat) : Nat := l.foldl (fun a b => 2 * a + b) 0

/-- Split a bit stream into 5-bit groups, zero-padding the last group, as
BASE32 encoding does. -/
def chunk5 : List Nat → List (List Nat)
  | [] => []
  | [b1] => [[b1, 0, 0, 0, 0]]
  | [b1, b2] => [[b1, b2, 0, 0, 0]]
  | [b1, b2, b3] => [[b1, b2, b3, 0, 0]]
  | [b1, b2, b3, b4] => [[b1, b2, b3, b4, 0]]
  | b1 :: b2 :: b3 :: b4 :: b5 :: rest => [b1, b2, b3, b4, b5] :: chunk5 rest

/-- Model of data_encoding BASE32_NOPAD.encode. -/
def base32NoPad (bs : List Nat) : List Char :=
  (chunk5 (bs.flatMap byteBits)).map (fun g => base32Alphabet.getD (bitsVal g) 'A')

/-- Model of Package from src/package.rs. The build_settings map is carried on
the package record, mirroring the field the build context reads as
pkg_info.build_settings (a HashMap, modelled as an association list). -/
inductive Package where
  | mk (pkgName pkgVersion : String) (deps : List Package)
       (buildSettings : List (String × String)) (hash : List Nat)

def Package.pkgName : Package → String
  | .mk n _ _ _ _ => n

def Package.pkgVersion : Package → String
  | .mk _ v _ _ _ => v

def Package.deps : Package → List Package
  | .mk _ _ d _ _ => d

def Package.buildSettings : Package → List (String × String)
  | .mk _ _ _ s _ => s

def Package.hash : Package → List Nat
  | .mk _ _ _ _ h => h

/-- Model of Package::pkg_ident: name, dash, version, dash, then the
BASE32_NOPAD encoding of the content hash appended. -/
def pkgIdent (p : Package) : String :=
  p.pkgName ++ "-" ++ p.pkgVersion ++ "-" ++ String.mk (base32NoPad p.hash)

/-! ## Path model (std PathBuf on Unix) -/

/-- Split a character sequence at slash characters. -/
def splitSlash : List Char → List (List Char)
  | [] => [[]]
  | c :: rest =>
    let r := splitSlash rest
    if c = '/' then [] :: r
    else
      match r with
      | [] => [[c]]
      | h :: t => (c :: h) :: t

/-- The nonempty path components of a string. -/
def pathComps (s : String) : List (List Char) :=
  (splitSlash s.data).filter (fun c => c ≠ [])

/-- A PathBuf: an absolute flag and a list of normal components. -/
structure PathM where
  abs : Bool
  comps : List (List Char)
deriving DecidableEq

/-- Whether the string form of a path is absolute (starts with a slash). -/
def strIsAbs (s : String) : Bool :=
  match s.data with
  | [] => false
  | c :: _ => c = '/'

/-- Model of PathBuf::push with a string argument: an absolute argument
replaces the whole buffer, a relative one appends its components. -/
def pushPath (p : PathM) (s : String) : PathM :=
  if strIsAbs s then ⟨true, pathComps s⟩
  else ⟨p.abs, p.comps ++ pathComps s⟩

/-- Model of PathBuf::push with a path argument. -/
def pushPathP (p q : PathM) : PathM :=
  if q.abs then q else ⟨p.abs, p.comps ++ q.comps⟩

/-- Model of PathBuf::pop: truncate to the parent, a no-op at a root. -/
def popPath (p : PathM) : PathM :=
  ⟨p.abs, p.comps.dropLast⟩

/-- Model of Path::strip_prefix with the root as prefix: succeeds exactly on
absolute paths, yielding the relative remainder; the .unwrap() in
src/namespace.rs panics exactly when this returns none. -/
def stripRootPath (p : PathM) : Option PathM :=
  if p.abs then some ⟨false, p.comps⟩ else none

/-- Model of Package::is_installed from src/package.rs: push the package
identifier onto the store path buffer, test existence, pop, and return the
test result. The filesystem is an oracle from paths to existence. -/
def isInstalled (fs : PathM → Bool) (p : Package) (pkgStoreDir : PathM) :
    Bool × PathM :=
  let ident := pkgIdent p
  let pushed := pushPath pkgStoreDir ident
  let res := fs pushed
  (res, popPath pushed)

/-! ## Context directory names, src/dirs.rs and the two Context impls -/

/-- Model of dirs::create_context_dir: join the temp directory with the
context name exactly as given and create that directory. -/
def createContextDir (tempDir contextName : String) : String :=
  tempDir ++ "/" ++ contextName

/-- Model of BuildCxt::context_name from src/build_cxt.rs: the bare package
name, with no suffix appended. -/
def buildContextName (pkg : Package) : String := pkg.pkgName

/-- Model of ShellCxt::context_name from src/context/shell_cxt.rs. -/
def shellContextName (unixSeconds : Nat) : String :=
  "shell-" ++ Nat.repr unixSeconds

/-! ## Resources, src/resource.rs -/

/-- The parts of a url::Url the fetcher reads. -/
structure UrlM where
  scheme : String
  path : String
deriving DecidableEq

/-- Model of Resource from src/resource.rs. -/
structure ResourceM where
  name : String
  hash : List Nat
  url : UrlM
deriving DecidableEq

/-- Model of hashes::HashError. -/
inductive HashErrM where
  | badHash (expected found : List Nat)
  | ioErr (e : Nat)
deriving DecidableEq

/-- Model of resource::ResourceError. -/
inductive ResourceErr where
  | hashError (err : HashErrM) (name : String)
  | ioError (e : Nat) (file : String)
  | httpError (e : Nat)
  | httpStatus (statusCode : Nat)
  | unrecognized (name scheme : String)
deriving DecidableEq

/-- Outcomes the outside world can hand to the resource fetcher: file
contents by path, one HTTP exchange, and the digest function. -/
structure FetchOracle where
  fsRead : String → Option (List Nat)
  http : Except Nat (Nat × List Nat)
  digest : List Nat → List Nat

/-- Model of Resource::fetch_file: open the source path, stream it through
the hasher and compare, and only then copy it to dest_dir/name. The second
component lists the destination files written. -/
def fetchFile (o : FetchOracle) (r : ResourceM) (buildDir : String) :
    Except ResourceErr Unit × List (String × List Nat) :=
  match o.fsRead r.url.path with
  | none => (.error (.ioError 2 r.url.path), [])
  | some content =>
    let found := o.digest content
    if found ≠ r.hash then
      (.error (.hashError (.badHash r.hash found) r.name), [])
    else
      (.ok (), [(buildDir ++ "/" ++ r.name, content)])

/-- Model of Resource::fetch_http: one GET; a non-200 status is HTTPStatus;
the body is hash-verified in memory and only then written to
dest_dir/name. -/
def fetchHttp (o : FetchOracle) (r : ResourceM) (buildDir : String) :
    Except ResourceErr Unit × List (String × List Nat) :=
  match o.http with
  | .error e => (.error (.httpError e), [])
  | .ok (statusCode, body) =>
    if statusCode ≠ 200 then (.error (.httpStatus statusCode), [])
    else
      let found := o.digest body
      if found ≠ r.hash then
        (.error (.hashError (.badHash r.hash found) r.name), [])
      else
        (.ok (), [(buildDir ++ "/" ++ r.name, body)])

/-- Model of Resource::fetch_resource: dispatch on the URL scheme, with the
minreq and minreq-https features enabled. -/
def fetchResource (o : FetchOracle) (r : ResourceM) (buildDir : String) :
    Except ResourceErr Unit × List (String × List Nat) :=
  if r.url.scheme = "file" then fetchFile o r buildDir
  else if r.url.scheme = "http" then fetchHttp o r buildDir
  else if r.url.scheme = "https" then fetchHttp o r buildDir
  else (.error (.unrecognized r.name r.url.scheme), [])

/-! ## Build context and the child environment, src/build_cxt.rs -/

/-- Model of BuildCxt from src/build_cxt.rs. -/
structure BuildCxtM where
  pkg : Package
  srcs : List ResourceM
  buildDeps : List Package
  buildCmd : String
  buildCmdArgs : List String

/-- Model of Context::dependencies for a build context: pkg_info.deps
chained with build_deps, in that order. -/
def dependencies (cxt : BuildCxtM) : List Package :=
  cxt.pkg.deps ++ cxt.buildDeps

/-- Model of Context::make_path_string: for each dependency in dependencies()
order, append store dir, slash, identifier, then the bin suffix. -/
def makePathString (cxt : BuildCxtM) (pkgStoreDir : String) : String :=
  (dependencies cxt).foldl
    (fun s d => s ++ pkgStoreDir ++ "/" ++ pkgIdent d ++ "/bin/:") ""

/-- Model of the dep_env_clos closure: a dependency exports its name bound to
its store path. -/
def depEnvPair (pkgStoreDir : String) (d : Package) : String × String :=
  (d.pkgName, pkgStoreDir ++ "/" ++ pkgIdent d)

/-- The environment insertions BuildCxt::exec_build_cmd performs after
env_clear, in source order: build_deps exports, then pkg_info.deps exports,
then build_settings, then the literal key out, then PATH. -/
def childEnvList (cxt : BuildCxtM) (pkgStoreDir outDir : String) :
    List (String × String) :=
  (cxt.buildDeps.map (depEnvPair pkgStoreDir))
    ++ (cxt.pkg.deps.map (depEnvPair pkgStoreDir))
    ++ cxt.pkg.buildSettings
    ++ [("out", outDir), ("PATH", makePathString cxt pkgStoreDir)]

/-- Lookup in a Command environment built by a list of insertions: a later
insertion with the same key overrides an earlier one. -/
def envGet (l : List (String × String)) (k : String) : Option String :=
  match l.reverse.find? (fun p => decide (p.1 = k)) with
  | some p => some p.2
  | none => none

/-! ## Bind mount path computation, src/namespace.rs -/

/-- Model of the mount_dep_dirs loop. The accumulator threads the dep_dir and
bind_dir buffers exactly as the source mutates them: push the identifier,
strip the root from dep_dir (the .unwrap(); none models the panic), push the
remainder onto bind_dir, record the mount pair, then reset bind_dir by
pushing the absolute build_dir and pop dep_dir. -/
def mountDepDirsGo (buildDir : PathM) (depDir bindDir : PathM) :
    List Package → Option (List (PathM × PathM))
  | [] => some []
  | d :: rest =>
    let depDir1 := pushPath depDir (pkgIdent d)
    match stripRootPath depDir1 with
    | none => none
    | some rel =>
      let bindDir1 := pushPathP bindDir rel
      match mountDepDirsGo buildDir (popPath depDir1) (pushPathP bindDir1 buildDir) rest with
      | none => none
      | some ms => some ((depDir1, bindDir1) :: ms)

/-- Model of namespace::mount_dep_dirs: the list of (source, target) bind
mounts, or none when some strip_prefix unwrap would panic. -/
def mountDepDirs (pkgStoreDir buildDir : PathM) (deps : List Package) :
    Option (List (PathM × PathM)) :=
  mountDepDirsGo buildDir pkgStoreDir buildDir deps

/-- Model of the umount_dep_dirs loop of src/namespace.rs, which recomputes
the same targets with the same push, strip, pop sequence. -/
def umountDepDirsGo (buildDir : PathM) (depDir bindDir : PathM) :
    List Package → Option (List PathM)
  | [] => some []
  | d :: rest =>
    let depDir1 := pushPath depDir (pkgIdent d)
    match stripRootPath depDir1 with
    | none => none
    | some rel =>
      let bindDir1 := pushPathP bindDir rel
      match umountDepDirsGo buildDir (popPath depDir1) (pushPathP bindDir1 buildDir) rest with
      | none => none
      | some ms => some (bindDir1 :: ms)

/-- Model of namespace::umount_dep_dirs: the list of unmounted targets, or
none when some strip_prefix unwrap would panic. -/
def umountDepDirs (pkgStoreDir buildDir : PathM) (deps : List Package) :
    Option (List PathM) :=
  umountDepDirsGo buildDir pkgStoreDir buildDir deps

/-- Model of namespace::mount_out_dir: strip the root from out_dir (the
.unwrap()), push the remainder onto a copy of build_dir, and bind mount
out_dir there. -/
def mountOutDir (buildDir outDir : PathM) : Option (PathM × PathM) :=
  match stripRootPath outDir with
  | none => none
  | some rel => some (outDir, pushPathP buildDir rel)

/-- Model of namespace::umount_out_dir. -/
def umountOutDir (buildDir outDir : PathM) : Option PathM :=
  match stripRootPath outDir with
  | none => none
  | some rel => some (pushPathP buildDir rel)

/-! ## Directory trees and calculate_directory_hash, src/walk_dir.rs -/

/-- A directory entry: name bytes, payload, and the read-only permission
bit. Children of a directory carry the enumeration order the filesystem
happens to produce. -/
inductive FsEntry where
  | file (name : List Nat) (content : List Nat) (ro : Bool)
  | symlink (name target : List Nat) (ro : Bool)
  | dir (name : List Nat) (children : List FsEntry) (ro : Bool)

/-- The file_name bytes of an entry. -/
def entryName : FsEntry → List Nat
  | .file n _ _ => n
  | .symlink n _ _ => n
  | .dir n _ _ => n

/-- Byte-lexicographic comparison of byte strings. Within one directory every
entry shares the parent path, so the full-path comparison the source
performs with entry.path() orders entries exactly by these basename
bytes. -/
def bytesLe : List Nat → List Nat → Bool
  | [], _ => true
  | _ :: _, [] => false
  | a :: as, b :: bs => if a < b then true else if b < a then false else bytesLe as bs

/-- Insert an entry into a name-sorted list. -/
def insertSorted (e : FsEntry) : List FsEntry → List FsEntry
  | [] => [e]
  | x :: xs =>
    if bytesLe (entryName e) (entryName x) then e :: x :: xs
    else x :: insertSorted e xs

/-- Model of entries.sort_by comparing paths: sort the enumerated entries by
name bytes. -/
def sortEnts : List FsEntry → List FsEntry
  | [] => []
  | e :: es => insertSorted e (sortEnts es)

theorem sortEnts_perm (l : List FsEntry) : (sortEnts l).Perm l := by
  induction l with
  | nil => exact List.Perm.refl _
  | cons e es ih =>
    have h1 : (insertSorted e (sortEnts es)).Perm (e :: sortEnts es) := by
      clear ih
      induction sortEnts es with
      | nil => exact List.Perm.refl _
      | cons x xs ih2 =>
        simp only [insertSorted]
        split
        · exact List.Perm.refl _
        · exact (List.Perm.cons x ih2).trans (List.Perm.swap e x xs)
    exact h1.trans (List.Perm.cons e ih)

/-- An enumeration order: how fs::read_dir happens to order each directory
listing it returns. It can only permute the real children. -/
structure EnumOrder where
  f : List FsEntry → List FsEntry
  isPerm : ∀ l, (f l).Perm l

/-- Model of one entry's contribution to the hash stream of
calculate_directory_hash: the basename bytes, then the file content for a
regular file, the unfollowed link-target bytes for a symlink, or the
recursive stream for a directory, with no separators. The recursion
re-enumerates each directory with the ambient enumeration order and sorts
what it got. -/
def entryBytes (s : EnumOrder) (e : FsEntry) : List Nat :=
  match e with
  | .file n c _ => n ++ c
  | .symlink n t _ => n ++ t
  | .dir n ch _ =>
    n ++ ((sortEnts (s.f ch)).attach.flatMap fun x =>
      have h2 : x.1 ∈ ch := ((sortEnts_perm (s.f ch)).trans (s.isPerm ch)).mem_iff.mp x.2
      have _h3 : sizeOf x.1 < sizeOf ch := List.sizeOf_lt_of_mem h2
      entryBytes s x.1)
termination_by sizeOf e
decreasing_by
  simp only [FsEntry.dir.sizeOf_spec]
  omega

/-- Model of walk_dir::calculate_directory_hash on a directory whose
children the filesystem enumerates in order s: the byte stream written into
the hasher. -/
def calculateDirectoryHash (s : EnumOrder) (listing : List FsEntry) : List Nat :=
  (sortEnts (s.f listing)).attach.flatMap fun x =>
    entryBytes s x.1

mutual
/-- Model of dirs::set_readonly_all: set the permission bit on an entry and,
depth-first, on everything below it. -/
def setReadonlyAll (b : Bool) : FsEntry → FsEntry
  | .file n c _ => .file n c b
  | .symlink n t _ => .symlink n t b
  | .dir n ch _ => .dir n (setReadonlyAllList b ch) b
def setReadonlyAllList (b : Bool) : List FsEntry → List FsEntry
  | [] => []
  | e :: es => setReadonlyAll b e :: setReadonlyAllList b es
end

mutual
/-- Whether every entry of a tree, the root included, is read-only. -/
def allReadonly : FsEntry → Bool
  | .file _ _ r => r
  | .symlink _ _ r => r
  | .dir _ ch r => r && allReadonlyList ch
def allReadonlyList : List FsEntry → Bool
  | [] => true
  | e :: es => allReadonly e && allReadonlyList es
end

mutual
/-- Whether names are pairwise distinct at every directory level, as they are
in a real filesystem. -/
def uniqNamesEntry : FsEntry → Bool
  | .file _ _ _ => true
  | .symlink _ _ _ => true
  | .dir _ ch _ => uniqNamesList ch
def uniqNamesList : List FsEntry → Bool
  | [] => true
  | e :: es =>
    uniqNamesEntry e && es.all (fun x => decide (entryName x ≠ entryName e))
      && uniqNamesList es
end

/-! ## The exec_build pipeline, src/build_cxt.rs -/

/-- Model of InnerBuildError. -/
inductive InnerBuildErr where
  | ioErr (e : Nat)
  | nsErr (e : Nat)
  | rsErr (e : Nat)
  | maybeAlreadyInstalled (ident : String)
deriving DecidableEq

/-- Model of BuildError. -/
inductive BuildErr where
  | canonicalizeErr
  | setupErr (e : InnerBuildErr)
  | execBuildCmdErr (e : Nat)
  | buildCmdErr (status : Nat)
  | hashErr (err : HashErrM) (teardownErr : Option Nat)
  | teardownErr (e : InnerBuildErr)
deriving DecidableEq

/-- Outcome of prepare_context_dir: create_context_dir can fail before the
build root exists; resource fetching and namespace setup fail after it
does. -/
inductive PrepOutcome where
  | createErr (e : Nat)
  | fetchErr (e : Nat)
  | nsSetupErr (e : Nat)
  | ok
deriving DecidableEq

/-- Outcome of Command::status for the build child. -/
inductive SpawnOutcome where
  | spawnErr (e : Nat)
  | exited (code : Nat)
deriving DecidableEq

/-- An output slot in the store: the byte stream its directory hash walk
produces, and whether it has been sealed read-only. -/
structure Slot where
  bytes : List Nat
  sealedRO : Bool
deriving DecidableEq

/-- The observable state a run of exec_build manipulates. -/
structure BuildSt where
  buildRootExists : Bool
  outSlot : Option Slot
  buildCmdRuns : Nat
deriving DecidableEq

/-- The outcomes the OS hands one run of exec_build: the digest function and
the content the build command writes, plus an error option per fallible
step. create_outdir failing with EEXIST is not an oracle choice: it happens
exactly when the slot already exists in the state. -/
structure BuildOracle where
  canonResult : Option String
  prepare : PrepOutcome
  mkdirErr : Option Nat
  mountOutErr : Option Nat
  spawn : SpawnOutcome
  builtBytes : List Nat
  digest : List Nat → List Nat
  hashIOErr : Option Nat
  removeOutErr : Option Nat
  sealErr : Option Nat
  umountOutErr : Option Nat
  umountDepsErr : Option Nat
  removeRootErr : Option Nat

/-- Model of BuildCxt::verify_build_hash: run the directory hasher over the
output slot and compare against the expected hash; on any error remove the
slot recursively, attaching a removal failure as teardown_err next to the
hash error. Returns the verification result and the slot afterwards. -/
def verifyBuildHash (o : BuildOracle) (expected : List Nat)
    (slot : Option Slot) : Except BuildErr Unit × Option Slot :=
  let hres : Except Nat (List Nat) :=
    match o.hashIOErr with
    | some e => .error e
    | none =>
      match slot with
      | none => .error 2
      | some s => .ok (o.digest s.bytes)
  match hres with
  | .error e =>
    (.error (.hashErr (.ioErr e) o.removeOutErr),
     if o.removeOutErr = none then none else slot)
  | .ok found =>
    if found = expected then (.ok (), slot)
    else
      (.error (.hashErr (.badHash expected found) o.removeOutErr),
       if o.removeOutErr = none then none else slot)

/-- Model of BuildCxt::exec_build: canonicalize the store path, prepare the
context directory (build root, resources, namespace, dep mounts), create or
reuse the output slot, and either verify in place or run the build command,
verify, seal and tear down. Returns the result and the final state. -/
def execBuild (cxt : BuildCxtM) (pkgStoreDir : String) (o : BuildOracle)
    (st0 : BuildSt) : Except BuildErr Package × BuildSt :=
  match (if strIsAbs pkgStoreDir then some pkgStoreDir else o.canonResult) with
  | none => (.error .canonicalizeErr, st0)
  | some _store =>
    match o.prepare with
    | .createErr e => (.error (.setupErr (.ioErr e)), st0)
    | .fetchErr e => (.error (.setupErr (.rsErr e)), { st0 with buildRootExists := true })
    | .nsSetupErr e => (.error (.setupErr (.nsErr e)), { st0 with buildRootExists := true })
    | .ok =>
      let st1 : BuildSt := { st0 with buildRootExists := true }
      match st1.outSlot with
      | some s =>
        let vr := verifyBuildHash o cxt.pkg.hash (some s)
        (vr.1.map (fun _ => cxt.pkg), { st1 with outSlot := vr.2 })
      | none =>
        match o.mkdirErr with
        | some e => (.error (.setupErr (.ioErr e)), st1)
        | none =>
          let st2 : BuildSt := { st1 with outSlot := some ⟨[], false⟩ }
          match o.mountOutErr with
          | some e => (.error (.setupErr (.nsErr e)), st2)
          | none =>
            match o.spawn with
            | .spawnErr e => (.error (.execBuildCmdErr e), st2)
            | .exited code =>
              let st3 : BuildSt :=
                { st2 with buildCmdRuns := st2.buildCmdRuns + 1,
                           outSlot := some ⟨o.builtBytes, false⟩ }
              if code ≠ 0 then (.error (.buildCmdErr code), st3)
              else
                let vr := verifyBuildHash o cxt.pkg.hash st3.outSlot
                let st4 : BuildSt := { st3 with outSlot := vr.2 }
                match vr.1 with
                | .error e => (.error e, st4)
                | .ok _ =>
                  match o.sealErr with
                  | some e => (.error (.teardownErr (.ioErr e)), st4)
                  | none =>
                    let sealedSlot : Option Slot :=
                      Option.map (fun s => { s with sealedRO := true }) st4.outSlot
                    let st5 : BuildSt := { st4 with outSlot := sealedSlot }
                    match o.umountOutErr with
                    | some e => (.error (.teardownErr (.nsErr e)), st5)
                    | none =>
                      match o.umountDepsErr with
                      | some e => (.error (.teardownErr (.nsErr e)), st5)
                      | none =>
                        match o.removeRootErr with
                        | some e => (.error (.teardownErr (.ioErr e)), st5)
                        | none => (.ok cxt.pkg, { st5 with buildRootExists := false })

/-! ## Path lemmas -/

theorem splitSlash_no_slash (l : List Char) (h : '/' ∉ l) : splitSlash l = [l] := by
  induction l with
  | nil => rfl
  | cons c rest ih =>
    have hc : ¬ (c = '/') := fun he => h (he ▸ List.mem_cons_self c rest)
    have hr : splitSlash rest = [rest] := ih (fun hm => h (List.mem_cons_of_mem c hm))
    simp only [splitSlash, hr]
    simp [hc]

theorem pathComps_single (s : String) (h : '/' ∉ s.data) (hne : s.data ≠ []) :
    pathComps s = [s.data] := by
  unfold pathComps
  rw [splitSlash_no_slash s.data h]
  simp [List.filter, hne]

theorem strIsAbs_of_no_slash (s : String) (h : '/' ∉ s.data) : strIsAbs s = false := by
  unfold strIsAbs
  cases hd : s.data with
  | nil => rfl
  | cons c t =>
    have hc : ¬ (c = '/') := fun he => h (hd ▸ (he ▸ List.mem_cons_self c t))
    simp [hc]

theorem pkgIdent_data_ne_nil (p : Package) : (pkgIdent p).data ≠ [] := by
  simp [pkgIdent, String.data_append]

/-! ## Environment lookup lemmas -/

theorem envGet_append (l1 l2 : List (String × String)) (k : String) :
    envGet (l1 ++ l2) k =
      match envGet l2 k with
      | some v => some v
      | none => envGet l1 k := by
  unfold envGet
  rw [List.reverse_append, List.find?_append]
  rcases h2 : List.find? (fun p => decide (p.1 = k)) l2.reverse with _ | p2 <;>
    simp [Option.or, h2]

theorem envGet_not_mem (l : List (String × String)) (k : String)
    (h : k ∉ l.map Prod.fst) : envGet l k = none := by
  unfold envGet
  have hf : List.find? (fun p => decide (p.1 = k)) l.reverse = none := by
    rw [List.find?_eq_none]
    intro x hx
    simp only [decide_eq_true_eq]
    intro he
    exact h (he ▸ List.mem_map_of_mem Prod.fst (List.mem_reverse.mp hx))
  rw [hf]

theorem find?_map_filter_single (nm : String) (d : Package) (s : String) :
    ∀ l : List Package, l.filter (fun x => decide (x.pkgName = nm)) = [d] →
      List.find? (fun p => decide (p.1 = nm)) (l.map (depEnvPair s))
        = some (depEnvPair s d) := by
  intro l
  induction l with
  | nil => intro h; simp at h
  | cons x t ih =>
    intro h
    rw [List.filter_cons] at h
    by_cases hx : x.pkgName = nm
    · simp only [hx, decide_True, if_true] at h
      injection h with h1 h2
      subst h1
      simp [List.find?, depEnvPair, hx]
    · simp only [hx, decide_False, if_false] at h
      have hr := ih h
      simp [List.find?, depEnvPair, hx, hr]

theorem envGet_map_unique (nm : String) (d : Package) (s : String)
    (l : List Package) (h : l.filter (fun x => decide (x.pkgName = nm)) = [d]) :
    envGet (l.map (depEnvPair s)) nm = some (s ++ "/" ++ pkgIdent d) := by
  unfold envGet
  have hrev : l.reverse.filter (fun x => decide (x.pkgName = nm)) = [d] := by
    rw [List.filter_reverse, h]
    rfl
  rw [← List.map_reverse, find?_map_filter_single nm d s l.reverse hrev]
  rfl

theorem envGet_map_empty (nm : String) (s : String) (l : List Package)
    (h : l.filter (fun x => decide (x.pkgName = nm)) = []) :
    envGet (l.map (depEnvPair s)) nm = none := by
  apply envGet_not_mem
  intro hmem
  rw [List.map_map] at hmem
  obtain ⟨x, hx, hxe⟩ := List.mem_map.mp hmem
  have : x ∈ l.filter (fun x => decide (x.pkgName = nm)) :=
    List.mem_filter.mpr ⟨hx, by simp [depEnvPair] at hxe; simp [hxe]⟩
  rw [h] at this
  cases this

/-! ## Claim theorems: hashes, store layout, package -/

/-- Claim C6: for every content hash (a byte list of digest width),
deserializing the serialized lowercase hex form yields the hash back, and
the deserializer rejects any input whose length differs from twice the
digest width with an invalid-length error, before attempting to decode. -/
theorem hash_hex_roundtrip (h : List Nat) (hlen : h.length = blake2sOutputSize)
    (hb : ∀ b ∈ h, b < 256) :
    visitBorrowedStr (serializeItemHash h) = .ok h
    ∧ (∀ v : List Char, v.length ≠ 2 * blake2sOutputSize →
        visitBorrowedStr v = .error (.invalidLength v.length)) := by
  constructor
  · unfold visitBorrowedStr
    rw [serializeItemHash_length, hlen]
    simp [decodeHexPermissive_serialize h hb]
  · intro v hv
    unfold visitBorrowedStr
    simp [hv]

theorem hash_hex_roundtrip_witness :
    (List.replicate 32 3).length = blake2sOutputSize
    ∧ visitBorrowedStr (serializeItemHash (List.replicate 32 3))
        = .ok (List.replicate 32 3) :=
  ⟨by decide,
   (hash_hex_roundtrip (List.replicate 32 3) (by decide) (by decide)).1⟩

/-- A package named pkgname, used as the concrete failing input for the
build-root naming claim. -/
def pkgnamePkg : Package := .mk "pkgname" "1.0.0" [] [] []

/-- Claim C7: the spec says the build root is created at tempdir slash the
package name with a -build suffix; the code joins the temp directory with
BuildCxt::context_name, which is the bare package name, so the build root
for a package named pkgname is tempdir/pkgname and not tempdir/pkgname-build.
The shell variant does get the full shell-seconds name. -/
theorem context_dir_name_no_suffix :
    createContextDir "/tmp" (buildContextName pkgnamePkg) = "/tmp/pkgname"
    ∧ createContextDir "/tmp" (buildContextName pkgnamePkg) ≠ "/tmp/pkgname-build"
    ∧ createContextDir "/tmp" (shellContextName 7) = "/tmp/shell-7" := by
  refine ⟨by decide, by decide, by decide⟩

/-- A package whose name contains a path separator, the concrete input on
which is_installed fails to restore its buffer. -/
def slashNamePkg : Package := .mk "a/b" "1.0.0" [] [] []

/-- Claim C10 counterexample: for a package whose name contains a slash, the
identifier pushes as two components while pop removes only one, so the
buffer is not restored on return. -/
theorem is_installed_frame_counterexample :
    (isInstalled (fun _ => false) slashNamePkg ⟨true, [String.toList "store"]⟩).2
      ≠ (⟨true, [String.toList "store"]⟩ : PathM) := by decide

/-- Claim C10 (amended): for every Package whose identifier contains no path
separator (as every real name-version pair produces), is_installed returns
exactly the existence of store/ident and restores the buffer to its
original value on return, on both result branches. -/
theorem is_installed_frame (fs : PathM → Bool) (p : Package) (b : PathM)
    (h : '/' ∉ (pkgIdent p).data) :
    (isInstalled fs p b).1 = fs (pushPath b (pkgIdent p))
    ∧ (isInstalled fs p b).2 = b := by
  have habs := strIsAbs_of_no_slash _ h
  have hcomps := pathComps_single _ h (pkgIdent_data_ne_nil p)
  refine ⟨rfl, ?_⟩
  show popPath (pushPath b (pkgIdent p)) = b
  unfold pushPath
  rw [habs]
  simp only [Bool.false_eq_true, if_false]
  unfold popPath
  rw [hcomps]
  simp [List.dropLast_concat]

theorem is_installed_frame_witness :
    '/' ∉ (pkgIdent pkgnamePkg).data
    ∧ (isInstalled (fun _ => true) pkgnamePkg ⟨true, []⟩).2 = ⟨true, []⟩ :=
  ⟨by decide,
   (is_installed_frame (fun _ => true) pkgnamePkg ⟨true, []⟩ (by decide)).2⟩

/-- Claim C9: fetch_resource dispatches on the URL scheme. A file URL opens
and hash-verifies the source before copying to dest/name; http and https
GET once, fail with HTTPStatus off a non-200 status, and hash-verify the
body before writing it; any other scheme is Unrecognized with the scheme
and resource name. In every backend a hash mismatch happens before any
write, so nothing is materialized on mismatch. -/
theorem fetch_resource_dispatch (o : FetchOracle) (r : ResourceM) (dest : String) :
    (r.url.scheme ≠ "file" → r.url.scheme ≠ "http" → r.url.scheme ≠ "https" →
      fetchResource o r dest = (.error (.unrecognized r.name r.url.scheme), []))
    ∧ (∀ content, r.url.scheme = "file" → o.fsRead r.url.path = some content →
        (o.digest content ≠ r.hash →
          fetchResource o r dest
            = (.error (.hashError (.badHash r.hash (o.digest content)) r.name), []))
        ∧ (o.digest content = r.hash →
          fetchResource o r dest = (.ok (), [(dest ++ "/" ++ r.name, content)])))
    ∧ (∀ statusCode body,
        (r.url.scheme = "http" ∨ r.url.scheme = "https") →
        o.http = .ok (statusCode, body) →
        (statusCode ≠ 200 →
          fetchResource o r dest = (.error (.httpStatus statusCode), []))
        ∧ (statusCode = 200 → o.digest body ≠ r.hash →
          fetchResource o r dest
            = (.error (.hashError (.badHash r.hash (o.digest body)) r.name), []))
        ∧ (statusCode = 200 → o.digest body = r.hash →
          fetchResource o r dest = (.ok (), [(dest ++ "/" ++ r.name, body)]))) := by
  refine ⟨?_, ?_, ?_⟩
  · intro h1 h2 h3
    simp [fetchResource, h1, h2, h3]
  · intro content hs hread
    constructor
    · intro hmm
      simp [fetchResource, fetchFile, hs, hread, hmm]
    · intro hok
      simp [fetchResource, fetchFile, hs, hread, hok]
  · intro statusCode body hs hhttp
    have hs2 : fetchResource o r dest = fetchHttp o r dest := by
      rcases hs with hs | hs <;> simp [fetchResource, hs]
    refine ⟨?_, ?_, ?_⟩
    · intro hst
      simp [hs2, fetchHttp, hhttp, hst]
    · intro hst hmm
      simp [hs2, fetchHttp, hhttp, hst, hmm]
    · intro hst hok
      simp [hs2, fetchHttp, hhttp, hst, hok]

/-- Concrete fetch oracle for the witness: the file at any path holds the
byte 1 and the digest is the identity. -/
def fetchOracleEx : FetchOracle :=
  { fsRead := fun _ => some [1], http := .ok (200, [1]), digest := fun bs => bs }

/-- A file resource pinned to a hash that does not match its content. -/
def resourceEx : ResourceM :=
  { name := "x", hash := [2], url := { scheme := "file", path := "/srcs/x" } }

theorem fetch_resource_dispatch_witness :
    fetchResource fetchOracleEx resourceEx "/build"
      = (.error (.hashError (.badHash [2] [1]) "x"), []) :=
  ((fetch_resource_dispatch fetchOracleEx resourceEx "/build").2.1 [1]
    rfl rfl).1 (by decide)

/-! ## Mount path safety, claim C8 -/

theorem pushPath_abs (p : PathM) (s : String) (h : p.abs = true) :
    (pushPath p s).abs = true := by
  unfold pushPath
  split <;> simp [h]

theorem mountDepDirsGo_isSome (buildDir : PathM) (deps : List Package) :
    ∀ depDir bindDir : PathM, depDir.abs = true →
      (mountDepDirsGo buildDir depDir bindDir deps).isSome = true := by
  induction deps with
  | nil => intro depDir bindDir h; rfl
  | cons d rest ih =>
    intro depDir bindDir h
    have h1 : (pushPath depDir (pkgIdent d)).abs = true := pushPath_abs _ _ h
    have h2 : (popPath (pushPath depDir (pkgIdent d))).abs = true := h1
    unfold mountDepDirsGo
    simp only [stripRootPath, h1, if_true]
    have hrec := ih (popPath (pushPath depDir (pkgIdent d)))
      (pushPathP (pushPathP bindDir ⟨false, (pushPath depDir (pkgIdent d)).comps⟩) buildDir) h2
    rcases h3 : mountDepDirsGo buildDir (popPath (pushPath depDir (pkgIdent d)))
        (pushPathP (pushPathP bindDir ⟨false, (pushPath depDir (pkgIdent d)).comps⟩) buildDir)
        rest with _ | ms
    · rw [h3] at hrec; cases hrec
    · simp [h3]

theorem umountDepDirsGo_isSome (buildDir : PathM) (deps : List Package) :
    ∀ depDir bindDir : PathM, depDir.abs = true →
      (umountDepDirsGo buildDir depDir bindDir deps).isSome = true := by
  induction deps with
  | nil => intro depDir bindDir h; rfl
  | cons d rest ih =>
    intro depDir bindDir h
    have h1 : (pushPath depDir (pkgIdent d)).abs = true := pushPath_abs _ _ h
    have h2 : (popPath (pushPath depDir (pkgIdent d))).abs = true := h1
    unfold umountDepDirsGo
    simp only [stripRootPath, h1, if_true]
    have hrec := ih (popPath (pushPath depDir (pkgIdent d)))
      (pushPathP (pushPathP bindDir ⟨false, (pushPath depDir (pkgIdent d)).comps⟩) buildDir) h2
    rcases h3 : umountDepDirsGo buildDir (popPath (pushPath depDir (pkgIdent d)))
        (pushPathP (pushPathP bindDir ⟨false, (pushPath depDir (pkgIdent d)).comps⟩) buildDir)
        rest with _ | ms
    · rw [h3] at hrec; cases hrec
    · simp [h3]

/-- Claim C8: when the package store path is absolute, as exec_build
guarantees by taking an absolute path as-is or canonicalizing a relative
one, every strip_prefix unwrap in mount_dep_dirs, umount_dep_dirs,
mount_out_dir and umount_out_dir succeeds, for any dependency list and any
package whose slot path is store/ident. -/
theorem strip_root_never_panics (pkgStoreDir buildDir : PathM)
    (deps : List Package) (p : Package) (h : pkgStoreDir.abs = true) :
    (mountDepDirs pkgStoreDir buildDir deps).isSome = true
    ∧ (umountDepDirs pkgStoreDir buildDir deps).isSome = true
    ∧ (mountOutDir buildDir (pushPath pkgStoreDir (pkgIdent p))).isSome = true
    ∧ (umountOutDir buildDir (pushPath pkgStoreDir (pkgIdent p))).isSome = true := by
  have hout : (pushPath pkgStoreDir (pkgIdent p)).abs = true := pushPath_abs _ _ h
  refine ⟨mountDepDirsGo_isSome buildDir deps _ _ h,
          umountDepDirsGo_isSome buildDir deps _ _ h, ?_, ?_⟩
  · simp [mountOutDir, stripRootPath, hout]
  · simp [umountOutDir, stripRootPath, hout]

theorem strip_root_never_panics_witness :
    (⟨true, [String.toList "yafpm"]⟩ : PathM).abs = true
    ∧ (mountDepDirs ⟨true, [String.toList "yafpm"]⟩ ⟨true, [String.toList "tmp"]⟩
        [pkgnamePkg]).isSome = true :=
  ⟨rfl,
   (strip_root_never_panics ⟨true, [String.toList "yafpm"]⟩
     ⟨true, [String.toList "tmp"]⟩ [pkgnamePkg] pkgnamePkg rfl).1⟩

/-! ## Child environment, claim C4 -/

/-- Claim C4 counterexample: the code exports the output slot path under the
lowercase key out, not OUT; on a concrete context the child environment has
no OUT variable while out holds the output slot path. -/
theorem child_env_out_key_counterexample :
    envGet (childEnvList
        ⟨.mk "hello" "1.0" [] [("CFLAGS", "-O2")] [], [], [], "/bin/sh", []⟩
        "/yafpm" "/yafpm/out1") "OUT" = none
    ∧ envGet (childEnvList
        ⟨.mk "hello" "1.0" [] [("CFLAGS", "-O2")] [], [], [], "/bin/sh", []⟩
        "/yafpm" "/yafpm/out1") "out" = some "/yafpm/out1" := by
  constructor <;> rfl

/-- Claim C4 (amended): after env_clear the child environment is exactly the
variables exec_build_cmd inserts: out bound to the output slot path (the
key is lowercase out, not OUT), one variable per dependency binding the dep
name to its store path, the build_settings entries, and PATH built by
joining store/ident/bin/: over package.deps then build_deps; any key
outside those insertions is absent. -/
theorem child_env_exact (cxt : BuildCxtM) (pkgStoreDir outDir : String) :
    envGet (childEnvList cxt pkgStoreDir outDir) "out" = some outDir
    ∧ envGet (childEnvList cxt pkgStoreDir outDir) "PATH"
        = some (makePathString cxt pkgStoreDir)
    ∧ (∀ k, k ∉ (childEnvList cxt pkgStoreDir outDir).map Prod.fst →
        envGet (childEnvList cxt pkgStoreDir outDir) k = none)
    ∧ (∀ d : Package,
        (dependencies cxt).filter (fun x => decide (x.pkgName = d.pkgName)) = [d] →
        d.pkgName ∉ cxt.pkg.buildSettings.map Prod.fst →
        d.pkgName ≠ "out" → d.pkgName ≠ "PATH" →
        envGet (childEnvList cxt pkgStoreDir outDir) d.pkgName
          = some (pkgStoreDir ++ "/" ++ pkgIdent d)) := by
  have htail : ∀ v1 v2 : String, envGet [("out", v1), ("PATH", v2)] "out" = some v1
      ∧ envGet [("out", v1), ("PATH", v2)] "PATH" = some v2 := by
    intro v1 v2
    constructor <;> rfl
  refine ⟨?_, ?_, ?_, ?_⟩
  · unfold childEnvList
    rw [envGet_append]
    rw [envGet_append]
    rw [envGet_append]
    rw [(htail outDir (makePathString cxt pkgStoreDir)).1]
  · unfold childEnvList
    rw [envGet_append]
    rw [envGet_append]
    rw [envGet_append]
    rw [(htail outDir (makePathString cxt pkgStoreDir)).2]
  · intro k hk
    exact envGet_not_mem _ k hk
  · intro d hfilter hbs hout hpath
    have htail2 : envGet [("out", outDir), ("PATH", makePathString cxt pkgStoreDir)]
        d.pkgName = none := by
      apply envGet_not_mem
      simp [hout, hpath]
    have hbs2 : envGet cxt.pkg.buildSettings d.pkgName = none :=
      envGet_not_mem _ _ hbs
    unfold childEnvList
    rw [envGet_append, envGet_append, envGet_append, htail2, hbs2]
    unfold dependencies at hfilter
    rw [List.filter_append] at hfilter
    rcases hpd : cxt.pkg.deps.filter (fun x => decide (x.pkgName = d.pkgName))
        with _ | ⟨x, restf⟩
    · rw [hpd, List.nil_append] at hfilter
      rw [envGet_map_empty _ _ _ hpd]
      rw [envGet_map_unique _ _ _ _ hfilter]
    · rw [hpd, List.cons_append] at hfilter
      injection hfilter with h1 h2
      have hrestf : restf = [] := by
        cases hr : restf with
        | nil => rfl
        | cons a b => rw [hr] at h2; cases h2
      have hpd2 : cxt.pkg.deps.filter (fun x => decide (x.pkgName = d.pkgName)) = [d] := by
        rw [hpd, hrestf, h1]
      rw [envGet_map_unique _ _ _ _ hpd2]

theorem child_env_exact_witness :
    envGet (childEnvList
        ⟨.mk "hello" "1.0" [] [("CFLAGS", "-O2")] [], [], [], "/bin/sh", []⟩
        "/yafpm" "/yafpm/out1") "PATH"
      = some (makePathString
        ⟨.mk "hello" "1.0" [] [("CFLAGS", "-O2")] [], [], [], "/bin/sh", []⟩
        "/yafpm") :=
  (child_env_exact
    ⟨.mk "hello" "1.0" [] [("CFLAGS", "-O2")] [], [], [], "/bin/sh", []⟩
    "/yafpm" "/yafpm/out1").2.1

/-! ## Pipeline claims C1, C2, C3 -/

theorem allReadonly_setReadonlyAll :
    (∀ e : FsEntry, allReadonly (setReadonlyAll true e) = true)
    ∧ (∀ l : List FsEntry, allReadonlyList (setReadonlyAllList true l) = true) := by
  have main : ∀ n : Nat,
      (∀ e : FsEntry, sizeOf e ≤ n → allReadonly (setReadonlyAll true e) = true)
      ∧ (∀ l : List FsEntry, sizeOf l ≤ n →
          allReadonlyList (setReadonlyAllList true l) = true) := by
    intro n
    induction n with
    | zero =>
      constructor
      · intro e he
        exfalso
        cases e <;>
          simp only [FsEntry.file.sizeOf_spec, FsEntry.symlink.sizeOf_spec,
            FsEntry.dir.sizeOf_spec] at he <;> omega
      · intro l hl
        exfalso
        cases l <;>
          simp only [List.nil.sizeOf_spec, List.cons.sizeOf_spec] at hl <;> omega
    | succ n ih =>
      constructor
      · intro e he
        cases e with
        | file nm c r => simp [setReadonlyAll, allReadonly]
        | symlink nm t r => simp [setReadonlyAll, allReadonly]
        | dir nm ch r =>
          have hch : sizeOf ch ≤ n := by
            simp only [FsEntry.dir.sizeOf_spec] at he; omega
          simp [setReadonlyAll, allReadonly, ih.2 ch hch]
      · intro l hl
        cases l with
        | nil => rfl
        | cons e es =>
          have h1 : sizeOf e ≤ n := by
            simp only [List.cons.sizeOf_spec] at hl; omega
          have h2 : sizeOf es ≤ n := by
            simp only [List.cons.sizeOf_spec] at hl; omega
          simp [setReadonlyAllList, allReadonlyList, ih.1 e h1, ih.2 es h2]
  exact ⟨fun e => (main (sizeOf e)).1 e le_rfl, fun l => (main (sizeOf l)).2 l le_rfl⟩

/-- Claim C1: when creating the output slot fails with EEXIST, which in the
model happens exactly when the slot already exists, exec_build does not run
the build command: it verifies the directory hash of the existing slot
against package.hash and on a match returns success with the context's
package value and an unchanged build-command count. Consequently of two
successive runs with the same configuration and store, the first of which
builds and verifies successfully from an empty slot, the second returns
success without executing the build command. -/
theorem exec_build_reuse_skips_build (cxt : BuildCxtM) (storeDir : String)
    (o : BuildOracle)
    (habs : strIsAbs storeDir = true)
    (hprep : o.prepare = .ok)
    (hio : o.hashIOErr = none) :
    (∀ (st : BuildSt) (s : Slot), st.outSlot = some s →
      o.digest s.bytes = cxt.pkg.hash →
      execBuild cxt storeDir o st = (.ok cxt.pkg, { st with buildRootExists := true })
      ∧ (execBuild cxt storeDir o st).2.buildCmdRuns = st.buildCmdRuns)
    ∧ (∀ st0 : BuildSt, st0.outSlot = none →
      o.mkdirErr = none → o.mountOutErr = none → o.spawn = .exited 0 →
      o.digest o.builtBytes = cxt.pkg.hash →
      o.sealErr = none → o.umountOutErr = none → o.umountDepsErr = none →
      o.removeRootErr = none →
      (execBuild cxt storeDir o st0).1 = .ok cxt.pkg
      ∧ (execBuild cxt storeDir o ((execBuild cxt storeDir o st0).2)).1 = .ok cxt.pkg
      ∧ (execBuild cxt storeDir o ((execBuild cxt storeDir o st0).2)).2.buildCmdRuns
          = ((execBuild cxt storeDir o st0).2).buildCmdRuns) := by
  have hreuse : ∀ (st : BuildSt) (s : Slot), st.outSlot = some s →
      o.digest s.bytes = cxt.pkg.hash →
      execBuild cxt storeDir o st = (.ok cxt.pkg, { st with buildRootExists := true })
      ∧ (execBuild cxt storeDir o st).2.buildCmdRuns = st.buildCmdRuns := by
    intro st s hslot hmatch
    obtain ⟨r0, sl0, n0⟩ := st
    simp only at hslot
    subst hslot
    have hstep : execBuild cxt storeDir o ⟨r0, some s, n0⟩
        = (.ok cxt.pkg, ⟨true, some s, n0⟩) := by
      simp [execBuild, verifyBuildHash, Except.map, habs, hprep, hio, hmatch]
    exact ⟨hstep, by rw [hstep]⟩
  refine ⟨hreuse, ?_⟩
  intro st0 h0 hmkdir hmount hspawn hbuilt hseal humo humd hrr
  obtain ⟨r0, sl0, n0⟩ := st0
  simp only at h0
  subst h0
  have hrun1 : execBuild cxt storeDir o ⟨r0, none, n0⟩
      = (.ok cxt.pkg, ⟨false, some ⟨o.builtBytes, true⟩, n0 + 1⟩) := by
    simp [execBuild, verifyBuildHash, habs, hprep, hio, hmkdir, hmount, hspawn,
      hbuilt, hseal, humo, humd, hrr]
  have hrun2 := hreuse ⟨false, some ⟨o.builtBytes, true⟩, n0 + 1⟩
    ⟨o.builtBytes, true⟩ rfl hbuilt
  refine ⟨by rw [hrun1], ?_, ?_⟩
  · rw [hrun1]
    rw [hrun2.1]
  · rw [hrun1]
    exact hrun2.2

/-- A build context and oracle on which every step succeeds, the digest being
the identity and the built slot bytes matching the declared hash. -/
def cxtEx : BuildCxtM := ⟨.mk "unhex" "0.0" [] [] [7, 7], [], [], "/unhex", []⟩

def oracleEx : BuildOracle :=
  { canonResult := none, prepare := .ok, mkdirErr := none, mountOutErr := none,
    spawn := .exited 0, builtBytes := [7, 7], digest := fun bs => bs,
    hashIOErr := none, removeOutErr := none, sealErr := none,
    umountOutErr := none, umountDepsErr := none, removeRootErr := none }

theorem exec_build_reuse_skips_build_witness :
    (execBuild cxtEx "/yafpm" oracleEx ⟨false, none, 0⟩).1 = .ok cxtEx.pkg
    ∧ (execBuild cxtEx "/yafpm" oracleEx
        ((execBuild cxtEx "/yafpm" oracleEx ⟨false, none, 0⟩).2)).1 = .ok cxtEx.pkg
    ∧ (execBuild cxtEx "/yafpm" oracleEx
        ((execBuild cxtEx "/yafpm" oracleEx ⟨false, none, 0⟩).2)).2.buildCmdRuns
      = ((execBuild cxtEx "/yafpm" oracleEx ⟨false, none, 0⟩).2).buildCmdRuns :=
  (exec_build_reuse_skips_build cxtEx "/yafpm" oracleEx rfl rfl rfl).2
    ⟨false, none, 0⟩ rfl rfl rfl rfl (by decide) rfl rfl rfl rfl

/-- Claim C2: whenever hash verification of the output slot finds a mismatch
against package.hash, after a build or on the reuse path, the slot is
removed recursively and HashError is returned; if the removal itself fails
its error is attached to the HashError as teardown_err instead of replacing
the hash error. -/
theorem verify_hash_mismatch_removes_slot (o : BuildOracle) (expected : List Nat)
    (s : Slot)
    (hio : o.hashIOErr = none)
    (hmm : o.digest s.bytes ≠ expected) :
    verifyBuildHash o expected (some s)
      = (.error (.hashErr (.badHash expected (o.digest s.bytes)) o.removeOutErr),
         if o.removeOutErr = none then none else some s)
    ∧ (∀ (cxt : BuildCxtM) (storeDir : String) (st : BuildSt),
        strIsAbs storeDir = true → o.prepare = .ok → st.outSlot = some s →
        expected = cxt.pkg.hash →
        execBuild cxt storeDir o st
          = (.error (.hashErr (.badHash expected (o.digest s.bytes)) o.removeOutErr),
             { st with buildRootExists := true,
                       outSlot := if o.removeOutErr = none then none else some s }))
    ∧ (∀ (cxt : BuildCxtM) (storeDir : String) (st : BuildSt),
        strIsAbs storeDir = true → o.prepare = .ok → st.outSlot = none →
        o.mkdirErr = none → o.mountOutErr = none → o.spawn = .exited 0 →
        o.digest o.builtBytes ≠ cxt.pkg.hash →
        (execBuild cxt storeDir o st).1
          = .error (.hashErr (.badHash cxt.pkg.hash (o.digest o.builtBytes))
              o.removeOutErr)) := by
  have hverify : verifyBuildHash o expected (some s)
      = (.error (.hashErr (.badHash expected (o.digest s.bytes)) o.removeOutErr),
         if o.removeOutErr = none then none else some s) := by
    simp [verifyBuildHash, hio, hmm]
  refine ⟨hverify, ?_, ?_⟩
  · intro cxt storeDir st habs hprep hslot hexp
    obtain ⟨r0, sl0, n0⟩ := st
    simp only at hslot
    subst hslot
    subst hexp
    simp [execBuild, Except.map, habs, hprep, hverify]
  · intro cxt storeDir st habs hprep hslot hmkdir hmount hspawn hmm2
    obtain ⟨r0, sl0, n0⟩ := st
    simp only at hslot
    subst hslot
    simp [execBuild, verifyBuildHash, habs, hprep, hio, hmkdir, hmount, hspawn, hmm2]

theorem verify_hash_mismatch_removes_slot_witness :
    verifyBuildHash oracleEx [9] (some ⟨[7, 7], true⟩)
      = (.error (.hashErr (.badHash [9] [7, 7]) none), none) := by
  have h := (verify_hash_mismatch_removes_slot oracleEx [9] ⟨[7, 7], true⟩
    rfl (by decide)).1
  simpa using h

/-- Claim C3 counterexample: a successful run through the reuse path leaves
the build root in place: with an existing matching slot, exec_build returns
success while the final state still has the build root. -/
theorem exec_build_root_survives_reuse :
    (execBuild cxtEx "/yafpm" oracleEx ⟨false, some ⟨[7, 7], true⟩, 0⟩).1
      = .ok cxtEx.pkg
    ∧ (execBuild cxtEx "/yafpm" oracleEx ⟨false, some ⟨[7, 7], true⟩, 0⟩).2.buildRootExists
      = true := by
  constructor <;> rfl

/-- Claim C3 (amended): for every run of exec_build that returns success and
whose output slot was newly created (the run did not take the EEXIST reuse
path), the build root no longer exists when the call returns and the output
slot exists sealed read-only; sealing with set_readonly_all makes every
entry below the slot read-only. On the reuse path the build root is left in
place, as the counterexample shows. -/
theorem exec_build_success_cleanup (cxt : BuildCxtM) (storeDir : String)
    (o : BuildOracle) (st0 : BuildSt) (p : Package)
    (h0 : st0.outSlot = none)
    (hr : (execBuild cxt storeDir o st0).1 = .ok p) :
    (execBuild cxt storeDir o st0).2.buildRootExists = false
    ∧ (∃ s : Slot, (execBuild cxt storeDir o st0).2.outSlot = some s
        ∧ s.sealedRO = true)
    ∧ (∀ l : List FsEntry, allReadonlyList (setReadonlyAllList true l) = true) := by
  obtain ⟨r0, sl0, n0⟩ := st0
  simp only at h0
  subst h0
  rcases hco : (if strIsAbs storeDir then some storeDir else o.canonResult)
      with _ | store
  · simp [execBuild, hco] at hr
  rcases hprep : o.prepare with e | e | e | _
  · simp [execBuild, hco, hprep] at hr
  · simp [execBuild, hco, hprep] at hr
  · simp [execBuild, hco, hprep] at hr
  rcases hmkdir : o.mkdirErr with _ | e
  on_goal 2 => simp [execBuild, hco, hprep, hmkdir] at hr
  rcases hmount : o.mountOutErr with _ | e
  on_goal 2 => simp [execBuild, hco, hprep, hmkdir, hmount] at hr
  rcases hspawn : o.spawn with e | code
  · simp [execBuild, hco, hprep, hmkdir, hmount, hspawn] at hr
  by_cases hcode : code = 0
  on_goal 2 =>
    simp [execBuild, hco, hprep, hmkdir, hmount, hspawn, hcode] at hr
  subst hcode
  rcases hio : o.hashIOErr with _ | e
  on_goal 2 =>
    simp [execBuild, verifyBuildHash, hco, hprep, hmkdir, hmount, hspawn, hio] at hr
  by_cases hd : o.digest o.builtBytes = cxt.pkg.hash
  on_goal 2 =>
    simp [execBuild, verifyBuildHash, hco, hprep, hmkdir, hmount, hspawn, hio, hd] at hr
  rcases hseal : o.sealErr with _ | e
  on_goal 2 =>
    simp [execBuild, verifyBuildHash, hco, hprep, hmkdir, hmount, hspawn, hio, hd,
      hseal] at hr
  rcases humo : o.umountOutErr with _ | e
  on_goal 2 =>
    simp [execBuild, verifyBuildHash, hco, hprep, hmkdir, hmount, hspawn, hio, hd,
      hseal, humo] at hr
  rcases humd : o.umountDepsErr with _ | e
  on_goal 2 =>
    simp [execBuild, verifyBuildHash, hco, hprep, hmkdir, hmount, hspawn, hio, hd,
      hseal, humo, humd] at hr
  rcases hrr : o.removeRootErr with _ | e
  on_goal 2 =>
    simp [execBuild, verifyBuildHash, hco, hprep, hmkdir, hmount, hspawn, hio, hd,
      hseal, humo, humd, hrr] at hr
  have hfinal : execBuild cxt storeDir o ⟨r0, none, n0⟩
      = (.ok cxt.pkg, ⟨false, some ⟨o.builtBytes, true⟩, n0 + 1⟩) := by
    simp [execBuild, verifyBuildHash, hco, hprep, hmkdir, hmount, hspawn, hio, hd,
      hseal, humo, humd, hrr]
  rw [hfinal]
  exact ⟨rfl, ⟨⟨o.builtBytes, true⟩, rfl, rfl⟩, allReadonly_setReadonlyAll.2⟩

theorem exec_build_success_cleanup_witness :
    (execBuild cxtEx "/yafpm" oracleEx ⟨false, none, 0⟩).2.buildRootExists = false
    ∧ (∃ s : Slot, (execBuild cxtEx "/yafpm" oracleEx ⟨false, none, 0⟩).2.outSlot
        = some s ∧ s.sealedRO = true) :=
  ⟨(exec_build_success_cleanup cxtEx "/yafpm" oracleEx ⟨false, none, 0⟩
      cxtEx.pkg rfl rfl).1,
   (exec_build_success_cleanup cxtEx "/yafpm" oracleEx ⟨false, none, 0⟩
      cxtEx.pkg rfl rfl).2.1⟩

/-! ## Byte order lemmas for the directory hasher -/

theorem bytesLe_total : ∀ a b : List Nat, bytesLe a b = true ∨ bytesLe b a = true := by
  intro a
  induction a with
  | nil => intro b; exact Or.inl rfl
  | cons x xs ih =>
    intro b
    cases b with
    | nil => exact Or.inr rfl
    | cons y ys =>
      rcases Nat.lt_trichotomy x y with h | h | h
      · left; simp [bytesLe, h]
      · subst h
        rcases ih ys with h2 | h2
        · left; simp [bytesLe, Nat.lt_irrefl, h2]
        · right; simp [bytesLe, Nat.lt_irrefl, h2]
      · right; simp [bytesLe, h]

theorem bytesLe_trans : ∀ a b c : List Nat,
    bytesLe a b = true → bytesLe b c = true → bytesLe a c = true := by
  intro a
  induction a with
  | nil => intro b c h1 h2; rfl
  | cons x xs ih =>
    intro b c hab hbc
    cases b with
    | nil => simp [bytesLe] at hab
    | cons y ys =>
      cases c with
      | nil => simp [bytesLe] at hbc
      | cons z zs =>
        simp only [bytesLe] at hab hbc ⊢
        split_ifs at hab hbc ⊢ <;>
          first
          | rfl
          | omega
          | exact Bool.noConfusion hab
          | exact Bool.noConfusion hbc
          | exact ih ys zs hab hbc

theorem bytesLe_antisymm : ∀ a b : List Nat,
    bytesLe a b = true → bytesLe b a = true → a = b := by
  intro a
  induction a with
  | nil =>
    intro b h1 h2
    cases b with
    | nil => rfl
    | cons y ys => simp [bytesLe] at h2
  | cons x xs ih =>
    intro b hab hba
    cases b with
    | nil => simp [bytesLe] at hab
    | cons y ys =>
      simp only [bytesLe] at hab hba
      split_ifs at hab hba <;>
        first
        | omega
        | exact Bool.noConfusion hab
        | exact Bool.noConfusion hba
        | (have hxy : x = y := by omega
           rw [hxy, ih ys hab hba])

theorem mem_insertSorted (e : FsEntry) :
    ∀ (l : List FsEntry) (y : FsEntry), y ∈ insertSorted e l → y = e ∨ y ∈ l := by
  intro l
  induction l with
  | nil =>
    intro y hy
    simp [insertSorted] at hy
    exact Or.inl hy
  | cons x xs ih =>
    intro y hy
    simp only [insertSorted] at hy
    split at hy
    · rcases List.mem_cons.mp hy with h | h
      · exact Or.inl h
      · exact Or.inr h
    · rcases List.mem_cons.mp hy with h | h
      · exact Or.inr (h ▸ List.mem_cons_self x xs)
      · rcases ih y h with h2 | h2
        · exact Or.inl h2
        · exact Or.inr (List.mem_cons_of_mem x h2)

theorem pairwise_insertSorted (e : FsEntry) :
    ∀ l : List FsEntry,
      List.Pairwise (fun a b => bytesLe (entryName a) (entryName b) = true) l →
      List.Pairwise (fun a b => bytesLe (entryName a) (entryName b) = true)
        (insertSorted e l) := by
  intro l
  induction l with
  | nil => intro _; simp [insertSorted]
  | cons x xs ih =>
    intro h
    rcases List.pairwise_cons.mp h with ⟨hx, hxs⟩
    by_cases hle : bytesLe (entryName e) (entryName x) = true
    · simp only [insertSorted, if_pos hle]
      refine List.pairwise_cons.mpr ⟨?_, h⟩
      intro y hy
      rcases List.mem_cons.mp hy with h2 | h2
      · rw [h2]; exact hle
      · exact bytesLe_trans _ _ _ hle (hx y h2)
    · simp only [insertSorted, if_neg hle]
      refine List.pairwise_cons.mpr ⟨?_, ih hxs⟩
      intro y hy
      rcases mem_insertSorted e xs y hy with h2 | h2
      · rw [h2]
        rcases bytesLe_total (entryName e) (entryName x) with h3 | h3
        · exact absurd h3 hle
        · exact h3
      · exact hx y h2

theorem sortEnts_sorted (l : List FsEntry) :
    List.Pairwise (fun a b => bytesLe (entryName a) (entryName b) = true)
      (sortEnts l) := by
  induction l with
  | nil => exact List.Pairwise.nil
  | cons e es ih => exact pairwise_insertSorted e (sortEnts es) ih

theorem uniqNamesList_pairwise :
    ∀ l : List FsEntry, uniqNamesList l = true →
      List.Pairwise (fun a b => entryName a ≠ entryName b) l := by
  intro l
  induction l with
  | nil => intro _; exact List.Pairwise.nil
  | cons e es ih =>
    intro h
    simp only [uniqNamesList, Bool.and_eq_true] at h
    refine List.pairwise_cons.mpr ⟨?_, ih h.2⟩
    intro b hb
    have h2 := List.all_eq_true.mp h.1.2 b hb
    simp only [decide_eq_true_eq] at h2
    exact h2.symm

theorem uniqNamesList_mem :
    ∀ l : List FsEntry, uniqNamesList l = true →
      ∀ x ∈ l, uniqNamesEntry x = true := by
  intro l
  induction l with
  | nil => intro _ x hx; cases hx
  | cons e es ih =>
    intro h x hx
    simp only [uniqNamesList, Bool.and_eq_true] at h
    rcases List.mem_cons.mp hx with h2 | h2
    · rw [h2]; exact h.1.1
    · exact ih h.2 x h2

theorem sortEnts_eq_of_perm (l1 l2 : List FsEntry) (hp : l1.Perm l2)
    (hu : List.Pairwise (fun a b => entryName a ≠ entryName b) l1) :
    sortEnts l1 = sortEnts l2 := by
  have hsym : ∀ {x y : FsEntry}, entryName x ≠ entryName y → entryName y ≠ entryName x :=
    fun h => h.symm
  have hperm : (sortEnts l1).Perm (sortEnts l2) :=
    (sortEnts_perm l1).trans (hp.trans (sortEnts_perm l2).symm)
  have hu1 : List.Pairwise (fun a b => entryName a ≠ entryName b) (sortEnts l1) :=
    ((sortEnts_perm l1).pairwise_iff hsym).mpr hu
  have hu2 : List.Pairwise (fun a b => entryName a ≠ entryName b) (sortEnts l2) :=
    ((sortEnts_perm l2).pairwise_iff hsym).mpr ((hp.pairwise_iff hsym).mp hu)
  refine hperm.eq_of_sorted ?_ ((sortEnts_sorted l1).and hu1)
    ((sortEnts_sorted l2).and hu2)
  intro a b ha hb hab hba
  exact absurd (bytesLe_antisymm _ _ hab.1 hba.1) hab.2

theorem attach_flatMap (l : List FsEntry) (g : FsEntry → List Nat) :
    (l.attach.flatMap fun x => g x.1) = l.flatMap g := by
  induction l with
  | nil => rfl
  | cons e es ih =>
    simp [List.attach_cons, List.flatMap_cons, List.flatMap_map, ih]

theorem flatMapCongrMem (l : List FsEntry) (f g : FsEntry → List Nat)
    (h : ∀ x ∈ l, f x = g x) : l.flatMap f = l.flatMap g := by
  induction l with
  | nil => rfl
  | cons e es ih =>
    rw [List.flatMap_cons, List.flatMap_cons, h e (List.mem_cons_self e es),
      ih (fun x hx => h x (List.mem_cons_of_mem e hx))]

theorem entryBytes_file (s : EnumOrder) (n c : List Nat) (r : Bool) :
    entryBytes s (.file n c r) = n ++ c := by
  simp [entryBytes]

theorem entryBytes_symlink (s : EnumOrder) (n t : List Nat) (r : Bool) :
    entryBytes s (.symlink n t r) = n ++ t := by
  simp [entryBytes]

theorem entryBytes_dir (s : EnumOrder) (n : List Nat) (ch : List FsEntry) (r : Bool) :
    entryBytes s (.dir n ch r) = n ++ calculateDirectoryHash s ch := by
  rw [entryBytes]
  rfl

theorem calcDirHash_flatMap (s : EnumOrder) (l : List FsEntry) :
    calculateDirectoryHash s l = (sortEnts (s.f l)).flatMap (entryBytes s) := by
  unfold calculateDirectoryHash
  exact attach_flatMap _ _

/-- Claim C5: calculate_directory_hash streams, for each direct child in
ascending sorted order (full-path order, which within one directory is the
basename byte order), the basename bytes then the file content, the
unfollowed link target, or the recursion for a directory, with no
separators; consequently for a fixed tree with distinct names at each
level, the stream is the same for every filesystem enumeration order. -/
theorem calculate_directory_hash_order_independent (s1 s2 : EnumOrder)
    (l : List FsEntry) (h : uniqNamesList l = true) :
    calculateDirectoryHash s1 l = calculateDirectoryHash s2 l := by
  have main : ∀ n : Nat, ∀ l : List FsEntry, sizeOf l ≤ n →
      uniqNamesList l = true →
      calculateDirectoryHash s1 l = calculateDirectoryHash s2 l := by
    intro n
    induction n with
    | zero =>
      intro l hl _
      exfalso
      cases l <;>
        simp only [List.nil.sizeOf_spec, List.cons.sizeOf_spec] at hl <;> omega
    | succ n ih =>
      intro l hl hu
      have hsym : ∀ {x y : FsEntry},
          entryName x ≠ entryName y → entryName y ≠ entryName x :=
        fun h => h.symm
      have hupw := uniqNamesList_pairwise l hu
      have hsort : sortEnts (s1.f l) = sortEnts (s2.f l) :=
        sortEnts_eq_of_perm (s1.f l) (s2.f l)
          ((s1.isPerm l).trans (s2.isPerm l).symm)
          (((s1.isPerm l).pairwise_iff hsym).mpr hupw)
      rw [calcDirHash_flatMap, calcDirHash_flatMap, hsort]
      apply flatMapCongrMem
      intro x hx
      have hxl : x ∈ l := ((sortEnts_perm (s2.f l)).trans (s2.isPerm l)).mem_iff.mp hx
      have hszx : sizeOf x < sizeOf l := List.sizeOf_lt_of_mem hxl
      have hux : uniqNamesEntry x = true := uniqNamesList_mem l hu x hxl
      cases x with
      | file nm c r => rw [entryBytes_file, entryBytes_file]
      | symlink nm t r => rw [entryBytes_symlink, entryBytes_symlink]
      | dir nm ch r =>
        have hch : sizeOf ch ≤ n := by
          have h2 : sizeOf (FsEntry.dir nm ch r) ≤ n + 1 :=
            le_of_lt (lt_of_lt_of_le hszx hl)
          simp only [FsEntry.dir.sizeOf_spec] at h2
          omega
        have huch : uniqNamesList ch = true := by
          simpa [uniqNamesEntry] using hux
        rw [entryBytes_dir, entryBytes_dir, ih ch hch huch]
  exact main (sizeOf l) l le_rfl h

/-- The in-order enumeration. -/
def enumOrderId : EnumOrder := ⟨fun l => l, fun l => List.Perm.refl l⟩

/-- The reversed enumeration. -/
def enumOrderRev : EnumOrder := ⟨List.reverse, fun l => List.reverse_perm l⟩

/-- A small concrete tree with distinct names at each level. -/
def treeEx : List FsEntry :=
  [.file [98] [1, 2] false,
   .dir [97] [.symlink [99] [47, 116] false, .file [100] [5] false] false]

theorem calculate_directory_hash_order_independent_witness :
    uniqNamesList treeEx = true
    ∧ calculateDirectoryHash enumOrderId treeEx
        = calculateDirectoryHash enumOrderRev treeEx :=
  ⟨by decide,
   calculate_directory_hash_order_independent enumOrderId enumOrderRev treeEx
     (by decide)⟩

end Yafpm
